import Mathlib

/-!
Verification of the slotlist-reboot backend against its specification.

The definitions below are a shallow embedding of the Python sources:

* `backend/api/auth.py` — the permission model (`parse_permissions`,
  `find_permission`, `has_permission`).  Python dictionaries are embedded
  as insertion-ordered association lists (the key order of a Python dict
  is its insertion order, and `parse_permissions` never creates duplicate
  keys); iteration over `dict.items()` becomes iteration over the list.
* `backend/api/models.py` — the ArmA 3 DLC whitelist.
* `backend/api/routers/mission.py` — the DLC validation helper, the
  DLC gates of the mission create/update handlers, and the slot-group
  create/delete handlers (order-number bookkeeping).
* `backend/api/import_utils.py` — the mission import flow, with the
  database embedded as explicit state and `transaction.atomic()` as a
  rollback-on-error combinator.

Python `str.lower().split('.')` is embedded as lowercasing the character
list and splitting it on the character `'.'` (`lowerSegs`); the lemma
`lowerSegs_eq_split` identifies this with `String.toLower` followed by
`String.split (· == '.')`.  Splitting on the single-character predicate
agrees with Python splitting on the one-character substring `'.'` (both
keep empty segments and both map the empty string to `[""]`).
-/

namespace Slotlist

/-- A Python dict-of-dicts permission tree: an insertion-ordered
association list of `(key, subtree)` pairs. -/
inductive PTree where
  | node : List (String × PTree) → PTree
deriving Repr

/-- The entries of a permission tree node. -/
def PTree.entries : PTree → List (String × PTree)
  | .node es => es

/-- First-match association-list lookup; `lookupKey es k` embeds the
Python dict operations `es[k]` / `k in es` (keys are unique in every
dict, so first match is the match). -/
def lookupKey : List (String × PTree) → String → Option PTree
  | [], _ => none
  | (k, t) :: es, p => if k = p then some t else lookupKey es p

/-- Embeds Python `s.lower().split('.')` (from `parse_permissions` and
`find_permission` in `backend/api/auth.py`).  Stated over the character
list of `s` so that it evaluates by kernel reduction; the lemma
`lowerSegs_eq_split` below identifies it with lowercasing followed by
`String.split` on `'.'`. -/
def lowerSegs (s : String) : List String :=
  (List.splitOnP (fun c => c == '.') (s.data.map Char.toLower)).map String.mk

/-- One permission string inserted into the tree: the inner `for part in
parts` loop of `parse_permissions`.  A present key keeps its position and
its other siblings (dict update in place); an absent key is appended at
the end (dict insertion order). -/
def insertPath (t : PTree) (parts : List String) : PTree :=
  match t, parts with
  | t, [] => t
  | .node es, p :: rest =>
    if (lookupKey es p).isSome then
      .node (es.map (fun e => (e.1, if e.1 = p then insertPath e.2 rest else e.2)))
    else
      .node (es ++ [(p, insertPath (.node []) rest)])

/-- Embeds `parse_permissions` from `backend/api/auth.py`: fold the permission
strings into a nested tree. -/
def parse_permissions (permissions : List String) : PTree :=
  permissions.foldl (fun parsed perm => insertPath parsed (lowerSegs perm)) (.node [])

/-- A Python value that is either a string or a list of strings — the
dynamic type of `target_permission` in `find_permission` and of
`target_permissions` in `has_permission`. -/
inductive StrOrList where
  | str : String → StrOrList
  | list : List String → StrOrList

/-- The recursive core of `find_permission` once the target is a list of
parts.  The empty-tree guard returns `False`; an exhausted part list
returns `True`; otherwise the `for current_key, next_tree in
permission_tree.items()` loop returns at the first key equal to `'*'` or
to the next part (checking `'*'` first within that iteration), and falls
through to `False` when no key matches. -/
def findParts : List String → PTree → Bool
  | parts, .node es =>
    if es.isEmpty then false
    else
      match parts with
      | [] => true
      | p :: rest =>
        match es.find? (fun e => e.1 == "*" || e.1 == p) with
        | none => false
        | some (k, t) =>
          if k = "*" then true
          else if rest.isEmpty then true
          else findParts rest t

/-- Embeds `find_permission` from `backend/api/auth.py`: a string target is
lowercased and split on dots; a list target is used as parts directly. -/
def find_permission (permission_tree : PTree) (target_permission : StrOrList) : Bool :=
  match target_permission with
  | .str s => findParts (lowerSegs s) permission_tree
  | .list parts => findParts parts permission_tree

/-- Embeds `has_permission` from `backend/api/auth.py`: empty permission lists
are rejected; a bare top-level `*` key or a found `admin.superadmin`
bypasses the target check; a list target succeeds when any element is
found, a string target when it is found itself. -/
def has_permission (permissions : List String) (target_permissions : StrOrList) : Bool :=
  if permissions.isEmpty then false
  else
    let parsed := parse_permissions permissions
    if (lookupKey parsed.entries "*").isSome ||
        find_permission parsed (.str "admin.superadmin") then true
    else
      match target_permissions with
      | .list ts => ts.any (fun t => find_permission parsed (.str t))
      | .str s => find_permission parsed (.str s)

/-- Sanity bridge: `lowerSegs` is exactly Lean-level
`s.toLower.split (· == '.')`, the direct reading of Python
`s.lower().split('.')`. -/
theorem lowerSegs_eq_split (s : String) :
    lowerSegs s = (s.toLower).split (fun c => c == '.') := by
  rw [lowerSegs, String.toLower, String.split_of_valid, String.map_eq]

/-- The function `lowerSegs` never returns the empty list (Python `split` always
returns at least one piece). -/
theorem lowerSegs_ne_nil (s : String) : lowerSegs s ≠ [] := by
  intro h
  rw [lowerSegs] at h
  exact List.splitOnP_ne_nil _ _ (List.map_eq_nil_iff.mp h)

/-- Walking a key path through the tree. -/
def pathLookup : PTree → List String → Option PTree
  | t, [] => some t
  | .node es, p :: rest =>
    match lookupKey es p with
    | none => none
    | some t => pathLookup t rest

theorem lookupKey_ne_nil {es : List (String × PTree)} {p : String} {t : PTree}
    (h : lookupKey es p = some t) : es ≠ [] := by
  intro he; subst he; simp [lookupKey] at h

/-- Lookup after the in-place dict update performed by `insertPath` on a
present key: the updated key maps to the transformed subtree. -/
theorem lookupKey_map_update (es : List (String × PTree)) (p : String)
    (f : PTree → PTree) :
    lookupKey (es.map (fun e => (e.1, if e.1 = p then f e.2 else e.2))) p =
      (lookupKey es p).map f := by
  induction es with
  | nil => simp [lookupKey]
  | cons e es ih =>
    obtain ⟨k, t⟩ := e
    by_cases hk : k = p
    · subst hk; simp [lookupKey]
    · simp [lookupKey, hk, ih]

/-- The in-place dict update leaves other keys untouched. -/
theorem lookupKey_map_other (es : List (String × PTree)) (p q : String)
    (f : PTree → PTree) (hq : q ≠ p) :
    lookupKey (es.map (fun e => (e.1, if e.1 = p then f e.2 else e.2))) q =
      lookupKey es q := by
  induction es with
  | nil => simp [lookupKey]
  | cons e es ih =>
    obtain ⟨k, t⟩ := e
    by_cases hk : k = p
    · subst hk; simp [lookupKey, Ne.symm hq, ih]
    · simp [lookupKey, hk, ih]

theorem lookupKey_append (es es₂ : List (String × PTree)) (q : String) :
    lookupKey (es ++ es₂) q =
      match lookupKey es q with
      | some t => some t
      | none => lookupKey es₂ q := by
  induction es with
  | nil => simp [lookupKey]
  | cons e es ih =>
    obtain ⟨k, t⟩ := e
    by_cases hk : k = q
    · subst hk; simp [lookupKey]
    · simp [lookupKey, if_neg hk, ih]

/-- Lemma `lookupKey_map_update` specialised to the update performed by
`insertPath`, stated so it rewrites syntactically. -/
theorem lookupKey_map_insert (es : List (String × PTree)) (p : String)
    (rest : List String) :
    lookupKey (es.map (fun e => (e.1, if e.1 = p then insertPath e.2 rest else e.2))) p =
      (lookupKey es p).map (fun u => insertPath u rest) :=
  lookupKey_map_update es p (fun u => insertPath u rest)

/-- Lemma `lookupKey_map_other` specialised to the update performed by
`insertPath`. -/
theorem lookupKey_map_insert_other (es : List (String × PTree)) (p q : String)
    (rest : List String) (hq : q ≠ p) :
    lookupKey (es.map (fun e => (e.1, if e.1 = p then insertPath e.2 rest else e.2))) q =
      lookupKey es q :=
  lookupKey_map_other es p q (fun u => insertPath u rest) hq

/-- Inserting creates: `insertPath` creates every prefix of the inserted path. -/
theorem pathLookup_insertPath_creates (parts : List String) :
    ∀ (pre : List String) (t : PTree), pre <+: parts →
      (pathLookup (insertPath t parts) pre).isSome := by
  induction parts with
  | nil =>
    intro pre t h
    rw [List.prefix_nil] at h
    subst h
    simp [insertPath, pathLookup]
  | cons p rest ih =>
    intro pre t hpre
    cases pre with
    | nil => simp [pathLookup]
    | cons a pre₂ =>
      rw [List.cons_prefix_cons] at hpre
      obtain ⟨rfl, hpre₂⟩ := hpre
      obtain ⟨es⟩ := t
      cases hu : lookupKey es a with
      | some u =>
        simp only [insertPath, hu, Option.isSome_some, if_true]
        simp only [pathLookup, lookupKey_map_insert, hu, Option.map_some']
        exact ih pre₂ u hpre₂
      | none =>
        simp only [insertPath, hu, Option.isSome_none, Bool.false_eq_true, if_false]
        simp only [pathLookup, lookupKey_append, hu, lookupKey, if_pos rfl]
        exact ih pre₂ (.node []) hpre₂

/-- Inserting preserves: `insertPath` preserves every path already present in the tree. -/
theorem pathLookup_insertPath_mono (parts : List String) :
    ∀ (path : List String) (t : PTree), (pathLookup t path).isSome →
      (pathLookup (insertPath t parts) path).isSome := by
  induction parts with
  | nil => intro path t h; simpa [insertPath] using h
  | cons p rest ih =>
    intro path t h
    cases path with
    | nil => simp [pathLookup]
    | cons a path₂ =>
      obtain ⟨es⟩ := t
      cases hu : lookupKey es a with
      | none => simp [pathLookup, hu] at h
      | some u =>
        simp only [pathLookup, hu] at h
        cases hp : lookupKey es p with
        | some w =>
          simp only [insertPath, hp, Option.isSome_some, if_true]
          by_cases hap : a = p
          · subst hap
            rw [hu] at hp
            obtain rfl : u = w := by injection hp
            simp only [pathLookup, lookupKey_map_insert, hu, Option.map_some']
            exact ih path₂ u h
          · simp only [pathLookup, lookupKey_map_insert_other _ _ _ _ hap, hu]
            exact h
        | none =>
          simp only [insertPath, hp, Option.isSome_none, Bool.false_eq_true, if_false]
          have hap : a ≠ p := by
            intro hc; subst hc; rw [hu] at hp; exact Option.noConfusion hp
          simp only [pathLookup, lookupKey_append, hu]
          exact h

/-- Conversely, every path present after an `insertPath` either was
present before or is a prefix of the inserted path. -/
theorem pathLookup_insertPath_inv (parts : List String) :
    ∀ (path : List String) (t : PTree),
      (pathLookup (insertPath t parts) path).isSome →
      (pathLookup t path).isSome ∨ path <+: parts := by
  induction parts with
  | nil => intro path t h; left; simpa [insertPath] using h
  | cons p rest ih =>
    intro path t h
    cases path with
    | nil => left; simp [pathLookup]
    | cons a path₂ =>
      obtain ⟨es⟩ := t
      cases hp : lookupKey es p with
      | some w =>
        simp only [insertPath, hp, Option.isSome_some, if_true] at h
        by_cases hap : a = p
        · subst hap
          simp only [pathLookup, lookupKey_map_insert, hp, Option.map_some'] at h
          rcases ih path₂ w h with h₂ | h₂
          · left; simp only [pathLookup, hp]; exact h₂
          · right; exact List.cons_prefix_cons.mpr ⟨rfl, h₂⟩
        · simp only [pathLookup, lookupKey_map_insert_other _ _ _ _ hap] at h
          left; simp only [pathLookup]; exact h
      | none =>
        simp only [insertPath, hp, Option.isSome_none, Bool.false_eq_true, if_false] at h
        simp only [pathLookup, lookupKey_append] at h
        cases hu : lookupKey es a with
        | some u =>
          rw [hu] at h
          left; simp only [pathLookup, hu]; exact h
        | none =>
          rw [hu] at h
          by_cases hap : p = a
          · subst hap
            simp only [lookupKey, if_pos rfl] at h
            rcases ih path₂ (.node []) h with h₂ | h₂
            · cases path₂ with
              | nil => right; exact ⟨rest, rfl⟩
              | cons b path₃ => simp [pathLookup, lookupKey] at h₂
            · right; exact List.cons_prefix_cons.mpr ⟨rfl, h₂⟩
          · simp [lookupKey, hap] at h

/-- Folding insertions: a path is present afterwards when it was present
before or is a prefix of the segments of some inserted permission. -/
theorem pathLookup_foldl_isSome (P : List String) :
    ∀ (t : PTree) (pre : List String),
      ((pathLookup t pre).isSome ∨ ∃ p ∈ P, pre <+: lowerSegs p) →
      (pathLookup (P.foldl (fun parsed perm => insertPath parsed (lowerSegs perm)) t)
        pre).isSome := by
  induction P with
  | nil =>
    intro t pre h
    rcases h with h | ⟨p, hp, _⟩
    · simpa using h
    · exact absurd hp (List.not_mem_nil p)
  | cons q P₂ ih =>
    intro t pre h
    rw [List.foldl_cons]
    apply ih
    rcases h with h | ⟨p, hp, hpre⟩
    · exact Or.inl (pathLookup_insertPath_mono _ _ _ h)
    · rcases List.mem_cons.mp hp with rfl | hp₂
      · exact Or.inl (pathLookup_insertPath_creates _ _ _ hpre)
      · exact Or.inr ⟨p, hp₂, hpre⟩

/-- Every path of the parsed tree is a prefix of some permission of `P`
(modulo lowercasing and splitting), except the trivial empty path. -/
theorem pathLookup_foldl_inv (P : List String) :
    ∀ (t : PTree) (path : List String),
      (pathLookup (P.foldl (fun parsed perm => insertPath parsed (lowerSegs perm)) t)
        path).isSome →
      (pathLookup t path).isSome ∨ ∃ p ∈ P, path <+: lowerSegs p := by
  induction P with
  | nil => intro t path h; exact Or.inl (by simpa using h)
  | cons q P₂ ih =>
    intro t path h
    rw [List.foldl_cons] at h
    rcases ih _ path h with h₂ | ⟨p, hp, hpre⟩
    · rcases pathLookup_insertPath_inv _ _ _ h₂ with h₃ | h₃
      · exact Or.inl h₃
      · exact Or.inr ⟨q, List.mem_cons_self q P₂, h₃⟩
    · exact Or.inr ⟨p, List.mem_cons_of_mem q hp, hpre⟩

/-- A path holds in `parse_permissions P` if some `p ∈ P` extends it. -/
theorem pathLookup_parse (P : List String) (p : String) (pre : List String)
    (hp : p ∈ P) (hpre : pre <+: lowerSegs p) :
    (pathLookup (parse_permissions P) pre).isSome :=
  pathLookup_foldl_isSome P _ pre (Or.inr ⟨p, hp, hpre⟩)

/-- Conversely a non-empty path of `parse_permissions P` comes from some
permission of `P`. -/
theorem pathLookup_parse_inv (P : List String) (path : List String)
    (h : (pathLookup (parse_permissions P) path).isSome) :
    path = [] ∨ ∃ p ∈ P, path <+: lowerSegs p := by
  rcases pathLookup_foldl_inv P _ path h with h₂ | h₂
  · cases path with
    | nil => exact Or.inl rfl
    | cons a path₂ => simp [pathLookup, lookupKey] at h₂
  · exact Or.inr h₂

/-- When the `for` loop of `find_permission` finds no key equal to `'*'`
or to the next part, neither key is in the dict. -/
theorem find_star_none {es : List (String × PTree)} {p : String}
    (h : es.find? (fun e => e.1 == "*" || e.1 == p) = none) :
    lookupKey es "*" = none ∧ lookupKey es p = none := by
  induction es with
  | nil => simp [lookupKey]
  | cons e es ih =>
    obtain ⟨k, t⟩ := e
    rw [List.find?_cons] at h
    by_cases hstar : k = "*"
    · subst hstar; simp at h
    · by_cases hkp : k = p
      · subst hkp; simp [hstar] at h
      · have h₂ : List.find? (fun e => e.1 == "*" || e.1 == p) es = none := by
          rw [show (k == "*") = false by simp [hstar],
            show (k == p) = false by simp [hkp]] at h
          exact h
        have h₃ := ih h₂
        exact ⟨by simp [lookupKey, hstar, h₃.1], by simp [lookupKey, hkp, h₃.2]⟩

/-- The entry at which the `for` loop of `find_permission` stops carries
either the key `'*'` or the next part — and in the latter case it is the
dict entry of that part. -/
theorem find_star_some {es : List (String × PTree)} {p k : String} {t : PTree}
    (h : es.find? (fun e => e.1 == "*" || e.1 == p) = some (k, t)) :
    k = "*" ∨ (k = p ∧ lookupKey es p = some t) := by
  induction es with
  | nil => simp at h
  | cons e es ih =>
    obtain ⟨k₀, t₀⟩ := e
    rw [List.find?_cons] at h
    by_cases hstar : k₀ = "*"
    · subst hstar
      simp only [beq_self_eq_true, Bool.true_or] at h
      obtain ⟨h₁, h₂⟩ : "*" = k ∧ t₀ = t := by
        constructor <;> injection h with h₃ <;> injection h₃
      exact Or.inl h₁.symm
    · by_cases hkp : k₀ = p
      · subst hkp
        simp only [beq_self_eq_true, Bool.or_true] at h
        obtain ⟨h₁, h₂⟩ : k₀ = k ∧ t₀ = t := by
          constructor <;> injection h with h₃ <;> injection h₃
        subst h₁; subst h₂
        exact Or.inr ⟨rfl, by simp [lookupKey]⟩
      · have h₂ : List.find? (fun e => e.1 == "*" || e.1 == p) es = some (k, t) := by
          rw [show (k₀ == "*") = false by simp [hstar],
            show (k₀ == p) = false by simp [hkp]] at h
          exact h
        rcases ih h₂ with hs | ⟨hq, hl⟩
        · exact Or.inl hs
        · exact Or.inr ⟨hq, by simp [lookupKey, hkp, hl]⟩

/-- Exhaustion: when the whole target path lies inside the tree,
`findParts` returns `True`. -/
theorem findParts_of_pathLookup (parts : List String) :
    ∀ (t : PTree), parts ≠ [] → (pathLookup t parts).isSome →
      findParts parts t = true := by
  induction parts with
  | nil => intro t h _; exact absurd rfl h
  | cons p rest ih =>
    intro t _ h
    obtain ⟨es⟩ := t
    cases hu : lookupKey es p with
    | none => simp [pathLookup, hu] at h
    | some u =>
      simp only [pathLookup, hu] at h
      have hes : es.isEmpty = false := by
        cases es with
        | nil => simp [lookupKey] at hu
        | cons a as => rfl
      cases hf : es.find? (fun e => e.1 == "*" || e.1 == p) with
      | none => exact absurd (find_star_none hf).2 (by simp [hu])
      | some e =>
        obtain ⟨k, w⟩ := e
        simp only [findParts, hes, Bool.false_eq_true, if_false]
        rw [hf]
        rcases find_star_some hf with rfl | ⟨rfl, hl⟩
        · simp
        · have huw : u = w := by rw [hu] at hl; exact Option.some.inj hl
          by_cases hps : k = "*"
          · simp [hps]
          · cases rest with
            | nil => simp [hps]
            | cons r rs =>
              have hrec := ih u (by simp) h
              rw [← huw]
              simp [hps, hrec]

/-- Wildcard: when the walk reaches a node carrying a `'*'` key and no
key equal to the next target part, `findParts` returns `True` whatever
target parts remain. -/
theorem findParts_wildcard (pre : List String) :
    ∀ (t : PTree) (es₂ : List (String × PTree)) (next : String) (restQ : List String),
      pathLookup t pre = some (.node es₂) →
      (lookupKey es₂ "*").isSome →
      lookupKey es₂ next = none →
      findParts (pre ++ next :: restQ) t = true := by
  induction pre with
  | nil =>
    intro t es₂ next restQ hp hstar hnone
    obtain rfl : t = PTree.node es₂ := by
      simp only [pathLookup] at hp; injection hp
    obtain ⟨w, hw⟩ := Option.isSome_iff_exists.mp hstar
    have hes : es₂.isEmpty = false := by
      cases es₂ with
      | nil => simp [lookupKey] at hw
      | cons a as => rfl
    rw [List.nil_append]
    cases hf : es₂.find? (fun e => e.1 == "*" || e.1 == next) with
    | none => exact absurd (find_star_none hf).1 (by simp [hw])
    | some e =>
      obtain ⟨k, w₂⟩ := e
      simp only [findParts, hes, Bool.false_eq_true, if_false]
      rw [hf]
      rcases find_star_some hf with rfl | ⟨rfl, hl⟩
      · simp
      · rw [hl] at hnone; exact Option.noConfusion hnone
  | cons a pre₂ ih =>
    intro t es₂ next restQ hp hstar hnone
    obtain ⟨es⟩ := t
    cases hu : lookupKey es a with
    | none => simp [pathLookup, hu] at hp
    | some u =>
      simp only [pathLookup, hu] at hp
      have hes : es.isEmpty = false := by
        cases es with
        | nil => simp [lookupKey] at hu
        | cons b bs => rfl
      rw [List.cons_append]
      cases hf : es.find? (fun e => e.1 == "*" || e.1 == a) with
      | none => exact absurd (find_star_none hf).2 (by simp [hu])
      | some e =>
        obtain ⟨k, w⟩ := e
        simp only [findParts, hes, Bool.false_eq_true, if_false]
        rw [hf]
        rcases find_star_some hf with rfl | ⟨rfl, hl⟩
        · simp
        · have huw : u = w := by rw [hu] at hl; exact Option.some.inj hl
          by_cases has : k = "*"
          · simp [has]
          · have hrec := ih u es₂ next restQ hp hstar hnone
            rw [← huw]
            simp [has, hrec]

/-- The global-bypass branch of `has_permission`: once `'*'` is a
top-level key or `admin.superadmin` is found, any target is granted. -/
theorem has_permission_of_bypass (P : List String) (tgt : StrOrList) (hP : P ≠ [])
    (h : ((lookupKey (parse_permissions P).entries "*").isSome ||
      find_permission (parse_permissions P) (.str "admin.superadmin")) = true) :
    has_permission P tgt = true := by
  have hPe : P.isEmpty = false := by
    cases P with
    | nil => exact absurd rfl hP
    | cons a as => rfl
  simp [has_permission, hPe, h]

/-- A found string target makes `has_permission` true. -/
theorem has_permission_of_find (P : List String) (q : String) (hP : P ≠ [])
    (h : findParts (lowerSegs q) (parse_permissions P) = true) :
    has_permission P (.str q) = true := by
  have hPe : P.isEmpty = false := by
    cases P with
    | nil => exact absurd rfl hP
    | cons a as => rfl
  by_cases hb : ((lookupKey (parse_permissions P).entries "*").isSome ||
      find_permission (parse_permissions P) (.str "admin.superadmin")) = true
  · exact has_permission_of_bypass P _ hP hb
  · have hbf : ((lookupKey (parse_permissions P).entries "*").isSome ||
        find_permission (parse_permissions P) (.str "admin.superadmin")) = false :=
      Bool.eq_false_iff.mpr hb
    simp [has_permission, hPe, hbf, find_permission, h]

/-- A one-step path is present exactly when the key is a top-level key. -/
theorem pathLookup_singleton_isSome (t : PTree) (x : String) :
    (pathLookup t [x]).isSome = (lookupKey t.entries x).isSome := by
  obtain ⟨es⟩ := t
  simp only [pathLookup, PTree.entries]
  cases hl : lookupKey es x <;> simp

/-- Splitting a present path at its last key. -/
theorem pathLookup_snoc_isSome (path : List String) :
    ∀ (t : PTree) (x : String), (pathLookup t (path ++ [x])).isSome →
      ∃ es, pathLookup t path = some (.node es) ∧ (lookupKey es x).isSome := by
  induction path with
  | nil =>
    intro t x h
    obtain ⟨es⟩ := t
    refine ⟨es, rfl, ?_⟩
    simp only [List.nil_append, pathLookup] at h
    cases hl : lookupKey es x with
    | none => rw [hl] at h; simp at h
    | some w => simp
  | cons a path₂ ih =>
    intro t x h
    obtain ⟨es⟩ := t
    rw [List.cons_append] at h
    cases hu : lookupKey es a with
    | none => simp [pathLookup, hu] at h
    | some u =>
      simp only [pathLookup, hu] at h ⊢
      exact ih u x h

/-- Rebuilding a present path from its last key. -/
theorem pathLookup_snoc_of (path : List String) :
    ∀ (t : PTree) (x : String) (es : List (String × PTree)),
      pathLookup t path = some (.node es) → (lookupKey es x).isSome →
      (pathLookup t (path ++ [x])).isSome := by
  induction path with
  | nil =>
    intro t x es hp hx
    simp only [pathLookup] at hp
    obtain rfl : t = PTree.node es := Option.some.inj hp
    simp only [List.nil_append, pathLookup]
    obtain ⟨w, hw⟩ := Option.isSome_iff_exists.mp hx
    simp [hw]
  | cons a path₂ ih =>
    intro t x es hp hx
    obtain ⟨es₀⟩ := t
    cases hu : lookupKey es₀ a with
    | none => simp [pathLookup, hu] at hp
    | some u =>
      simp only [pathLookup, hu] at hp
      rw [List.cons_append]
      simp only [pathLookup, hu]
      exact ih u x es hp hx

/-- C9: with an empty permission list `has_permission` is `False` for
every target, and `find_permission` on an empty tree is `False` for
every target. -/
theorem empty_permissions_deny (tgt tgt₂ : StrOrList) :
    has_permission [] tgt = false ∧ find_permission (.node []) tgt₂ = false := by
  have hnil : ∀ parts, findParts parts (.node []) = false := by
    intro parts; cases parts <;> rfl
  constructor
  · rfl
  · cases tgt₂ <;> simp [find_permission, hnil]

/-- C3: a target whose lowercased segments are a prefix of (or equal to)
the lowercased segments of some held permission is granted. -/
theorem prefix_target_granted (P : List String) (q p : String)
    (hp : p ∈ P) (hpre : lowerSegs q <+: lowerSegs p) :
    has_permission P (.str q) = true :=
  has_permission_of_find P q (List.ne_nil_of_mem hp)
    (findParts_of_pathLookup _ _ (lowerSegs_ne_nil q)
      (pathLookup_parse P p _ hp hpre))

/-- Witness for C3 at a concrete input. -/
theorem prefix_target_granted_witness :
    ("a.b.c" ∈ (["a.b.c"] : List String)) ∧
      lowerSegs "a.b" <+: lowerSegs "a.b.c" ∧
      has_permission ["a.b.c"] (.str "a.b") = true :=
  ⟨by simp, ⟨["c"], by decide⟩,
    prefix_target_granted ["a.b.c"] "a.b" "a.b.c" (by simp) ⟨["c"], by decide⟩⟩

/-- C2: a permission list containing `admin.superadmin` or a bare `*`
grants every target, string or list, including the empty list. -/
theorem global_bypass_grants_all (P : List String) (tgt : StrOrList)
    (h : "admin.superadmin" ∈ P ∨ "*" ∈ P) :
    has_permission P tgt = true := by
  have hP : P ≠ [] := by rcases h with h | h <;> exact List.ne_nil_of_mem h
  apply has_permission_of_bypass P tgt hP
  rw [Bool.or_eq_true]
  rcases h with h | h
  · right
    have hpath : (pathLookup (parse_permissions P)
        (lowerSegs "admin.superadmin")).isSome :=
      pathLookup_parse P _ _ h (List.prefix_refl _)
    exact findParts_of_pathLookup _ _ (lowerSegs_ne_nil _) hpath
  · left
    have hpath : (pathLookup (parse_permissions P) ["*"]).isSome :=
      pathLookup_parse P "*" ["*"] h ⟨[], by decide⟩
    rw [← pathLookup_singleton_isSome]
    exact hpath

/-- Witness for C2 at a concrete input (empty target list). -/
theorem global_bypass_grants_all_witness :
    ("admin.superadmin" ∈ (["admin.superadmin"] : List String) ∨
      "*" ∈ (["admin.superadmin"] : List String)) ∧
      has_permission ["admin.superadmin"] (.list []) = true :=
  ⟨Or.inl (by simp),
    global_bypass_grants_all ["admin.superadmin"] (.list []) (Or.inl (by simp))⟩

/-- C5: `parse_permissions` merges the shared prefix of `a.b` and `a.c`
into a single top-level `a` node with exactly the children `b` and `c`. -/
theorem parse_merges_shared_prefix :
    parse_permissions ["a.b", "a.c"] =
      .node [("a", .node [("b", .node []), ("c", .node [])])] := rfl

/-- Counterexample to C1 as stated: `a.*` has segments `["a", "*"]`, the
prefix `["a"]` of the target walk of `a.b.x`, yet the permission is
denied: the `for` loop of `find_permission` descends into the sibling
`b` branch (inserted first by `a.b.c`) and returns from it, never
reaching the `*` key of the same level. -/
theorem wildcard_shadowed_counterexample :
    ("a.*" ∈ (["a.b.c", "a.*"] : List String)) ∧
      lowerSegs "a.*" = ["a"] ++ ["*"] ∧
      (["a"] : List String) <+: lowerSegs "a.b.x" ∧
      has_permission ["a.b.c", "a.*"] (.str "a.b.x") = false :=
  ⟨by simp, by decide, ⟨["b", "x"], by decide⟩, by decide⟩

/-- C1 as amended: a held permission `pre.*` whose prefix `pre` lies on
the target walk grants the target, provided no held permission extends
`pre` with the next target segment (such a sibling, when inserted before
the wildcard permission, shadows the `*` key, as the counterexample
shows).  A top-level bare `*` always grants via the global bypass. -/
theorem wildcard_grants_unless_shadowed (P : List String) (q p₀ : String)
    (pre rest : List String)
    (hp₀ : p₀ ∈ P) (hseg : lowerSegs p₀ = pre ++ ["*"])
    (hq : lowerSegs q = pre ++ rest)
    (hnosib : ∀ next rest₂, rest = next :: rest₂ →
      ∀ p ∈ P, ¬ ((pre ++ [next]) <+: lowerSegs p)) :
    has_permission P (.str q) = true := by
  have hP : P ≠ [] := List.ne_nil_of_mem hp₀
  cases pre with
  | nil =>
    apply has_permission_of_bypass P _ hP
    rw [Bool.or_eq_true]
    left
    have hpath : (pathLookup (parse_permissions P) ["*"]).isSome :=
      pathLookup_parse P p₀ ["*"] hp₀ ⟨[], by simp [hseg]⟩
    rw [← pathLookup_singleton_isSome]
    exact hpath
  | cons a pre₂ =>
    cases rest with
    | nil =>
      apply has_permission_of_find P q hP
      apply findParts_of_pathLookup _ _ (lowerSegs_ne_nil q)
      apply pathLookup_parse P p₀ _ hp₀
      rw [hq, hseg]
      exact ⟨["*"], by simp⟩
    | cons next rest₂ =>
      apply has_permission_of_find P q hP
      have hpath : (pathLookup (parse_permissions P)
          ((a :: pre₂) ++ ["*"])).isSome := by
        apply pathLookup_parse P p₀ _ hp₀
        rw [hseg]
      obtain ⟨es₂, hes₂, hstar⟩ := pathLookup_snoc_isSome _ _ _ hpath
      have hnone : lookupKey es₂ next = none := by
        cases hl : lookupKey es₂ next with
        | none => rfl
        | some w =>
          have hpath₂ : (pathLookup (parse_permissions P)
              ((a :: pre₂) ++ [next])).isSome :=
            pathLookup_snoc_of _ _ _ es₂ hes₂ (by simp [hl])
          rcases pathLookup_parse_inv P _ hpath₂ with hnil | ⟨p, hpmem, hppre⟩
          · exact absurd hnil (by simp)
          · exact absurd hppre (hnosib next rest₂ rfl p hpmem)
      rw [hq]
      exact findParts_wildcard _ _ es₂ next rest₂ hes₂ hstar hnone

/-- Witness for the amended C1 at a concrete input. -/
theorem wildcard_grants_unless_shadowed_witness :
    ("a.*" ∈ (["a.*"] : List String)) ∧
      lowerSegs "a.*" = ["a"] ++ ["*"] ∧
      lowerSegs "a.b" = ["a"] ++ ["b"] ∧
      has_permission ["a.*"] (.str "a.b") = true := by
  refine ⟨by simp, by decide, by decide, ?_⟩
  apply wildcard_grants_unless_shadowed ["a.*"] "a.b" "a.*" ["a"] ["b"]
    (by simp) (by decide) (by decide)
  intro next rest₂ h p hp hpre
  obtain rfl : p = "a.*" := by simpa using hp
  obtain ⟨rfl, rfl⟩ : next = "b" ∧ rest₂ = ([] : List String) := by
    constructor <;> injection h with h₁ h₂
    · exact h₁.symm
    · exact h₂.symm
  obtain ⟨tail, htail⟩ := hpre
  rw [show lowerSegs "a.*" = ["a", "*"] from by decide] at htail
  simp at htail

/-- C4: a list target succeeds exactly when some element of the list
succeeds as a single target (for a non-empty target list). -/
theorem list_target_any (P : List String) (T : List String) (hT : T ≠ []) :
    has_permission P (.list T) = true ↔
      ∃ t ∈ T, has_permission P (.str t) = true := by
  cases hPe : P.isEmpty with
  | true => simp [has_permission, hPe]
  | false =>
    by_cases hb : ((lookupKey (parse_permissions P).entries "*").isSome ||
        find_permission (parse_permissions P) (.str "admin.superadmin")) = true
    · constructor
      · intro _
        obtain ⟨t, ht⟩ := List.exists_mem_of_ne_nil T hT
        exact ⟨t, ht, by simp [has_permission, hPe, hb]⟩
      · intro _
        simp [has_permission, hPe, hb]
    · have hbf : ((lookupKey (parse_permissions P).entries "*").isSome ||
          find_permission (parse_permissions P) (.str "admin.superadmin")) = false :=
        Bool.eq_false_iff.mpr hb
      simp [has_permission, hPe, hbf, List.any_eq_true]

/-- Witness for C4 at a concrete input. -/
theorem list_target_any_witness :
    ((["a"] : List String) ≠ []) ∧
      (has_permission ["a"] (.list ["a"]) = true ↔
        ∃ t ∈ (["a"] : List String), has_permission ["a"] (.str t) = true) :=
  ⟨by simp, list_target_any ["a"] ["a"] (by simp)⟩

/-- ASCII lowercasing is idempotent at the character level. -/
theorem charToLower_toLower (c : Char) : c.toLower.toLower = c.toLower := by
  by_cases h : c.toNat ≥ 65 ∧ c.toNat ≤ 90
  · have hv : (c.toNat + 32).isValidChar := Or.inl (by omega)
    have ht : (Char.ofNat (c.toNat + 32)).toNat = c.toNat + 32 := by
      rw [Char.ofNat, dif_pos hv]; rfl
    have h₁ : c.toLower = Char.ofNat (c.toNat + 32) := by
      simp only [Char.toLower]; rw [if_pos h]
    rw [h₁]
    simp only [Char.toLower]
    rw [ht, if_neg (by omega)]
  · have h₁ : c.toLower = c := by
      simp only [Char.toLower]; rw [if_neg h]
    rw [h₁, h₁]

/-- ASCII lowercasing is idempotent at the string level. -/
theorem stringToLower_toLower (s : String) : s.toLower.toLower = s.toLower := by
  simp only [String.toLower, String.map_eq, List.map_map]
  congr 1
  apply List.map_congr_left
  intro a _
  exact charToLower_toLower a

/-- The lowercased segments of a string only depend on its lowercasing. -/
theorem lowerSegs_congr {s s₂ : String} (h : s.toLower = s₂.toLower) :
    lowerSegs s = lowerSegs s₂ := by
  have hd : s.data.map Char.toLower = s₂.data.map Char.toLower := by
    have h₁ : (s.toLower).data = s.data.map Char.toLower := by
      rw [String.toLower, String.map_eq]
    have h₂ : (s₂.toLower).data = s₂.data.map Char.toLower := by
      rw [String.toLower, String.map_eq]
    rw [← h₁, ← h₂, h]
  rw [lowerSegs, lowerSegs, hd]

/-- The parsed tree only depends on the lowercased segment lists. -/
theorem parse_permissions_congr {P P₂ : List String}
    (h : P.map lowerSegs = P₂.map lowerSegs) :
    parse_permissions P = parse_permissions P₂ := by
  rw [parse_permissions, parse_permissions,
    ← List.foldl_map lowerSegs (fun parsed segs => insertPath parsed segs),
    ← List.foldl_map lowerSegs (fun parsed segs => insertPath parsed segs), h]

/-- Lowercasing each permission string does not change its segments. -/
theorem map_lowerSegs_map_toLower (P : List String) :
    (P.map String.toLower).map lowerSegs = P.map lowerSegs := by
  rw [List.map_map]
  apply List.map_congr_left
  intro a _
  exact lowerSegs_congr (stringToLower_toLower a)

/-- C6 core: `has_permission` with string targets only depends on the
lowercasing of the permission strings and of the target. -/
theorem has_permission_str_congr (P P₂ : List String) (q q₂ : String)
    (hP : P.map String.toLower = P₂.map String.toLower)
    (hq : q.toLower = q₂.toLower) :
    has_permission P (.str q) = has_permission P₂ (.str q₂) := by
  have hemp : P.isEmpty = P₂.isEmpty := by
    cases P <;> cases P₂ <;> simp_all
  have hsegs : P.map lowerSegs = P₂.map lowerSegs := by
    have h₁ : ∀ L : List String, L.map lowerSegs =
        (L.map String.toLower).map lowerSegs := fun L =>
      (map_lowerSegs_map_toLower L).symm
    rw [h₁ P, h₁ P₂, hP]
  have hparse : parse_permissions P = parse_permissions P₂ :=
    parse_permissions_congr hsegs
  have hq₂ : lowerSegs q = lowerSegs q₂ := lowerSegs_congr hq
  simp only [has_permission, find_permission, hemp, hparse, hq₂]

/-- C6: `has_permission` is case-insensitive — any case change of the
permission list and of the string target that preserves the lowercase
image preserves the result; in particular the result is unchanged by
lowercasing all inputs. -/
theorem has_permission_case_insensitive :
    (∀ (P P₂ : List String) (q q₂ : String),
      P.map String.toLower = P₂.map String.toLower → q.toLower = q₂.toLower →
      has_permission P (.str q) = has_permission P₂ (.str q₂)) ∧
    ∀ (P : List String) (q : String),
      has_permission P (.str q) =
        has_permission (P.map String.toLower) (.str q.toLower) := by
  refine ⟨has_permission_str_congr, fun P q => ?_⟩
  apply has_permission_str_congr
  · rw [List.map_map]
    apply List.map_congr_left
    intro a _
    exact (stringToLower_toLower a).symm
  · exact (stringToLower_toLower q).symm

/-- Witness for C6 at a concrete input. -/
theorem has_permission_case_insensitive_witness :
    ((["A.B"] : List String).map String.toLower =
        (["a.b"] : List String).map String.toLower) ∧
      ("X.y".toLower = "x.Y".toLower) ∧
      has_permission ["A.B"] (.str "X.y") = has_permission ["a.b"] (.str "x.Y") := by
  have hq : "X.y".toLower = "x.Y".toLower := by
    rw [String.toLower, String.toLower, String.map_eq, String.map_eq]; decide
  have hP : (["A.B"] : List String).map String.toLower =
      (["a.b"] : List String).map String.toLower := by
    simp only [List.map_cons, List.map_nil]
    rw [String.toLower, String.toLower, String.map_eq, String.map_eq]; decide
  exact ⟨hP, hq, has_permission_case_insensitive.1 ["A.B"] ["a.b"] "X.y" "x.Y" hP hq⟩

/-! DLC whitelist validation (`backend/api/models.py`,
`backend/api/routers/mission.py`). -/

/-- The `value` of each member of the `ArmaThreeDLC` choices class, in
declaration order: the whitelist used by `validate_dlc_list` and
`get_valid_dlcs`. -/
def ArmaThreeDLC.values : List String :=
  ["apex", "contact", "helicopters", "jets", "karts", "lawsofwar",
    "marksmen", "tanks", "tacops",
    "gm", "csla", "vn", "spe", "ws", "rf", "ef", "aow"]

/-- The dynamic argument of `ArmaThreeDLC.validate_dlc_list`: a Python
list of strings, or any non-list value (including `None`). -/
inductive PyDLCArg where
  | pylist : List String → PyDLCArg
  | nonList : PyDLCArg

/-- Embeds `ArmaThreeDLC.validate_dlc_list` from `backend/api/models.py`:
non-lists are invalid, the empty list is valid, and otherwise every
entry must be a whitelisted DLC value. -/
def ArmaThreeDLC.validate_dlc_list : PyDLCArg → Bool
  | .nonList => false
  | .pylist dlc_list =>
    if dlc_list.length = 0 then true
    else dlc_list.all (fun dlc => ArmaThreeDLC.values.contains dlc)

/-- The helper `validate_dlc_list` of `backend/api/routers/mission.py`:
`None` and the empty list pass silently; a non-empty list failing
`ArmaThreeDLC.validate_dlc_list` raises `HttpError(400, ...)`. -/
def validate_dlc_list (dlc_list : Option (List String)) : Except Nat Unit :=
  match dlc_list with
  | none => .ok ()
  | some l =>
    if l.isEmpty then .ok ()
    else if ArmaThreeDLC.validate_dlc_list (.pylist l) then .ok ()
    else .error 400

/-- The DLC gate of `create_mission`: the payload field is validated
first and, on success, the created mission stores the list (or `[]` when
the field was `None`). -/
def create_mission_dlc_gate (required_dlcs : Option (List String)) :
    Except Nat (List String) :=
  match validate_dlc_list required_dlcs with
  | .error e => .error e
  | .ok _ => .ok (required_dlcs.getD [])

/-- The DLC gate of `update_mission`: a `None` field skips validation
and leaves the stored list unchanged; a provided list is validated and
then stored. -/
def update_mission_dlc_gate (current : List String)
    (required_dlcs : Option (List String)) : Except Nat (List String) :=
  match required_dlcs with
  | none => .ok current
  | some l =>
    match validate_dlc_list (some l) with
    | .error e => .error e
    | .ok _ => .ok l

/-- C7: `ArmaThreeDLC.validate_dlc_list` accepts exactly the lists all
of whose entries are whitelisted (empty list valid, non-list invalid),
and the mission create/update handlers reject a required-DLC list with
an entry outside the whitelist with HTTP 400 while accepting `None` or
the empty list. -/
theorem dlc_whitelist_enforced :
    (∀ arg, ArmaThreeDLC.validate_dlc_list arg = true ↔
      ∃ l, arg = .pylist l ∧ ∀ d ∈ l, d ∈ ArmaThreeDLC.values) ∧
    (∀ l : List String, (∃ d ∈ l, d ∉ ArmaThreeDLC.values) →
      create_mission_dlc_gate (some l) = .error 400 ∧
      ∀ current, update_mission_dlc_gate current (some l) = .error 400) ∧
    (create_mission_dlc_gate none = .ok [] ∧
      create_mission_dlc_gate (some []) = .ok [] ∧
      ∀ current, update_mission_dlc_gate current none = .ok current ∧
        update_mission_dlc_gate current (some []) = .ok []) := by
  refine ⟨?_, ?_,
    by simp [create_mission_dlc_gate, validate_dlc_list],
    by simp [create_mission_dlc_gate, validate_dlc_list],
    fun current => ⟨by simp [update_mission_dlc_gate],
      by simp [update_mission_dlc_gate, validate_dlc_list]⟩⟩
  · intro arg
    cases arg with
    | nonList => simp [ArmaThreeDLC.validate_dlc_list]
    | pylist l =>
      cases l with
      | nil => simp [ArmaThreeDLC.validate_dlc_list]
      | cons d ds =>
        simp [ArmaThreeDLC.validate_dlc_list, List.all_eq_true]
  · intro l hl
    obtain ⟨d, hd, hnv⟩ := hl
    have hne : l.isEmpty = false := by
      cases l with
      | nil => exact absurd hd (List.not_mem_nil d)
      | cons a as => rfl
    have hlen : ¬ l.length = 0 := by
      cases l with
      | nil => exact absurd hd (List.not_mem_nil d)
      | cons a as => simp
    have hall : l.all (fun dlc => ArmaThreeDLC.values.contains dlc) = false := by
      rw [List.all_eq_false]
      exact ⟨d, hd, by simpa using hnv⟩
    have hv : ArmaThreeDLC.validate_dlc_list (.pylist l) = false := by
      rw [ArmaThreeDLC.validate_dlc_list, if_neg hlen]
      exact hall
    have hr : validate_dlc_list (some l) = .error 400 := by
      simp [validate_dlc_list, hne, hv]
    exact ⟨by simp [create_mission_dlc_gate, hr],
      fun current => by simp [update_mission_dlc_gate, hr]⟩

/-- Witness for C7 at a concrete input. -/
theorem dlc_whitelist_enforced_witness :
    ((∃ d ∈ (["notadlc"] : List String), d ∉ ArmaThreeDLC.values) ∧
      create_mission_dlc_gate (some ["notadlc"]) = .error 400 ∧
      update_mission_dlc_gate ["apex"] (some ["notadlc"]) = .error 400) := by
  have hd : ∃ d ∈ (["notadlc"] : List String), d ∉ ArmaThreeDLC.values :=
    ⟨"notadlc", by simp, by decide⟩
  exact ⟨hd, (dlc_whitelist_enforced.2.1 _ hd).1,
    (dlc_whitelist_enforced.2.1 _ hd).2 ["apex"]⟩

/-! Slot-group order-number bookkeeping
(`create_mission_slot_group` / `delete_mission_slot_group` in
`backend/api/routers/mission.py`).  A mission's slot groups are embedded
as the list of their rows; the `uid` column is the primary key. -/

structure MissionSlotGroup where
  uid : String
  title : String
  description : String
  order_number : Int
deriving DecidableEq, Repr

/-- Embeds `create_mission_slot_group`: the new group gets order number
`insertAfter + 1`, every existing group at or above it is shifted up by
one, and the new row is created.  Returns the table and the new row. -/
def create_mission_slot_group (groups : List MissionSlotGroup)
    (insertAfter : Int) (uid title : String) (description : Option String) :
    List MissionSlotGroup × MissionSlotGroup :=
  let new_order_number := insertAfter + 1
  let shifted := groups.map (fun g =>
    if g.order_number ≥ new_order_number then
      { g with order_number := g.order_number + 1 }
    else g)
  let slot_group : MissionSlotGroup :=
    { uid := uid, title := title, description := description.getD "",
      order_number := new_order_number }
  (shifted ++ [slot_group], slot_group)

/-- Embeds `delete_mission_slot_group`: 404 (`none`) when no group has the
requested uid; otherwise the row is deleted and every group with a
larger order number is shifted down by one. -/
def delete_mission_slot_group (groups : List MissionSlotGroup)
    (uid : String) : Option (List MissionSlotGroup) :=
  match groups.find? (fun g => g.uid == uid) with
  | none => none
  | some slot_group =>
    let deleted_order := slot_group.order_number
    some ((groups.filter (fun g => g.uid != uid)).map (fun g =>
      if g.order_number > deleted_order then
        { g with order_number := g.order_number - 1 }
      else g))

/-- C10: inserting a slot group after position `k` gives it order number
`k + 1`, shifts exactly the pre-existing groups with order number at
least `k + 1` up by one, keeps the others unchanged, and deleting the
new group restores the original table. -/
theorem slot_group_insert_delete_roundtrip (groups : List MissionSlotGroup)
    (k : Int) (uid title : String) (description : Option String)
    (hfresh : ∀ g ∈ groups, g.uid ≠ uid) :
    (create_mission_slot_group groups k uid title description).2.order_number
        = k + 1 ∧
    (∀ g ∈ groups,
      (g.order_number ≥ k + 1 →
        { g with order_number := g.order_number + 1 } ∈
          (create_mission_slot_group groups k uid title description).1) ∧
      (g.order_number ≤ k →
        g ∈ (create_mission_slot_group groups k uid title description).1)) ∧
    delete_mission_slot_group
      (create_mission_slot_group groups k uid title description).1 uid =
        some groups := by
  refine ⟨rfl, ?_, ?_⟩
  · intro g hg
    constructor
    · intro hge
      apply List.mem_append_left
      exact List.mem_map.mpr ⟨g, hg, by rw [if_pos hge]⟩
    · intro hle
      apply List.mem_append_left
      have hng : ¬ g.order_number ≥ k + 1 := by omega
      exact List.mem_map.mpr ⟨g, hg, by rw [if_neg hng]⟩
  · have hpred : ∀ x ∈ groups.map (fun g : MissionSlotGroup =>
        if g.order_number ≥ k + 1 then
          { g with order_number := g.order_number + 1 }
        else g), x.uid ≠ uid := by
      intro x hx
      obtain ⟨g, hg, rfl⟩ := List.mem_map.mp hx
      by_cases h : g.order_number ≥ k + 1
      · rw [if_pos h]; exact hfresh g hg
      · rw [if_neg h]; exact hfresh g hg
    simp only [create_mission_slot_group, delete_mission_slot_group]
    have hnone : (groups.map (fun g : MissionSlotGroup =>
        if g.order_number ≥ k + 1 then
          { g with order_number := g.order_number + 1 }
        else g)).find? (fun g => g.uid == uid) = none := by
      rw [List.find?_eq_none]
      intro x hx
      simpa using hpred x hx
    rw [List.find?_append, hnone, Option.none_or]
    simp only [List.find?_cons, beq_self_eq_true]
    rw [List.filter_append]
    have hfilter : (groups.map (fun g : MissionSlotGroup =>
        if g.order_number ≥ k + 1 then
          { g with order_number := g.order_number + 1 }
        else g)).filter (fun g => g.uid != uid) =
        groups.map (fun g : MissionSlotGroup =>
          if g.order_number ≥ k + 1 then
            { g with order_number := g.order_number + 1 }
          else g) := by
      rw [List.filter_eq_self]
      intro x hx
      simpa using hpred x hx
    rw [hfilter]
    have hdrop : List.filter (fun g => g.uid != uid)
        [({ uid := uid, title := title, description := description.getD "", order_number := k + 1 } : MissionSlotGroup)] = [] := by
      simp [List.filter]
    rw [hdrop, List.append_nil, List.map_map]
    have hid : groups.map ((fun g : MissionSlotGroup =>
        if g.order_number > k + 1 then
          { g with order_number := g.order_number - 1 }
        else g) ∘ (fun g : MissionSlotGroup =>
        if g.order_number ≥ k + 1 then
          { g with order_number := g.order_number + 1 }
        else g)) = groups := by
      have : ∀ g : MissionSlotGroup, ((fun g : MissionSlotGroup =>
          if g.order_number > k + 1 then
            { g with order_number := g.order_number - 1 }
          else g) ∘ (fun g : MissionSlotGroup =>
          if g.order_number ≥ k + 1 then
            { g with order_number := g.order_number + 1 }
          else g)) g = g := by
        intro g
        by_cases h : g.order_number ≥ k + 1
        · simp only [Function.comp_apply, if_pos h]
          rw [if_pos (show ({ g with order_number := g.order_number + 1 } :
              MissionSlotGroup).order_number > k + 1 by
            show g.order_number + 1 > k + 1
            omega)]
          show ({ g with order_number := g.order_number + 1 - 1 } :
            MissionSlotGroup) = g
          rw [Int.add_sub_cancel]
        · simp only [Function.comp_apply, if_neg h]
          rw [if_neg (by omega : ¬ g.order_number > k + 1)]
      rw [List.map_congr_left (fun g _ => this g)]
      exact List.map_id' groups
    rw [hid]

/-- Witness for C10 at a concrete input. -/
theorem slot_group_insert_delete_roundtrip_witness :
    (∀ g ∈ ([{ uid := "g1", title := "A", description := "", order_number := 1 },
        { uid := "g2", title := "B", description := "", order_number := 2 }] :
        List MissionSlotGroup), g.uid ≠ "g3") ∧
      delete_mission_slot_group
        (create_mission_slot_group
          [{ uid := "g1", title := "A", description := "", order_number := 1 },
            { uid := "g2", title := "B", description := "", order_number := 2 }]
          1 "g3" "C" none).1 "g3" =
        some [{ uid := "g1", title := "A", description := "", order_number := 1 },
          { uid := "g2", title := "B", description := "", order_number := 2 }] :=
  ⟨by decide,
    (slot_group_insert_delete_roundtrip
      [{ uid := "g1", title := "A", description := "", order_number := 1 },
        { uid := "g2", title := "B", description := "", order_number := 2 }]
      1 "g3" "C" none (by decide)).2.2⟩

/-! Mission import (`backend/api/import_utils.py`).  The database is
embedded as explicit state (one list of rows per table, primary keys as
written in the models); ORM `create` calls on tables whose primary key
comes from the input data can raise an integrity error on a duplicate
key; `transaction.atomic()` is a rollback-on-error combinator: an
exception inside the block yields the state from just before the block.
The `fetch_mission_data` network path is outside the embedding:
`mission_data` and `slots_data` are taken as provided, as in the
management-command path of `import_mission`. -/

/-- API community payload, as read by `get_or_create_community`. -/
structure CommunityData where
  uid : String
  name : String
  tag : String
  slug : String
  website : Option String
  logoUrl : Option String
deriving DecidableEq

/-- API user payload, as read by `get_or_create_user`. -/
structure UserData where
  uid : String
  nickname : String
  community : Option CommunityData
deriving DecidableEq

/-- API slot payload, as read by `_import_slots`. -/
structure SlotData where
  uid : String
  title : String
  description : Option String
  detailedDescription : Option String
  orderNumber : Int
  requiredDLCs : List String
  externalAssignee : Option String
  assignee : Option UserData
  restrictedCommunity : Option CommunityData
  registrationUid : Option String
  blocked : Bool
  reserve : Bool
  autoAssignable : Bool
deriving DecidableEq

/-- API slot-group payload, as read by `_import_slots`. -/
structure SlotGroupData where
  uid : String
  title : String
  description : Option String
  orderNumber : Int
  slots : List SlotData
deriving DecidableEq

/-- API mission payload, as read by `import_mission`. -/
structure MissionData where
  slug : String
  title : String
  description : String
  creator : Option UserData
  community : CommunityData
  requiredDLCs : List String
deriving DecidableEq

structure CommunityRow where
  uid : String
  name : String
  tag : String
  slug : String
deriving DecidableEq

structure UserRow where
  uid : String
  nickname : String
  steam_id : String
  community_uid : Option String
deriving DecidableEq

structure MissionRow where
  slug : String
  title : String
  creator_uid : String
  community_uid : String
  required_dlcs : List String
deriving DecidableEq

structure SlotGroupRow where
  uid : String
  mission_slug : String
  title : String
  description : Option String
  order_number : Int
deriving DecidableEq

structure SlotRow where
  uid : String
  slot_group_uid : String
  title : String
  description : Option String
  detailed_description : Option String
  order_number : Int
  required_dlcs : List String
  external_assignee : Option String
  assignee_uid : Option String
  restricted_community_uid : Option String
  blocked : Bool
  reserve : Bool
  auto_assignable : Bool
deriving DecidableEq

structure RegistrationRow where
  uid : String
  user_uid : String
  slot_uid : String
deriving DecidableEq

/-- The database tables touched by the import flow. -/
structure DB where
  communities : List CommunityRow
  users : List UserRow
  missions : List MissionRow
  slot_groups : List SlotGroupRow
  slots : List SlotRow
  registrations : List RegistrationRow
deriving DecidableEq

/-- The exceptions of `import_utils.py` reachable from the embedded
paths, plus the database integrity error a `create` with a duplicate
input-supplied primary key raises. -/
inductive ImportErr where
  | missionAlreadyExists
  | creatorNotFound
  | integrityError
deriving DecidableEq

/-- Embeds `get_or_create_community`: look up by `uid`, create on miss. -/
def get_or_create_community (db : DB) (community_data : CommunityData) :
    DB × CommunityRow :=
  match db.communities.find? (fun c => c.uid == community_data.uid) with
  | some row => (db, row)
  | none =>
    let row : CommunityRow :=
      { uid := community_data.uid, name := community_data.name,
        tag := community_data.tag, slug := community_data.slug }
    ({ db with communities := db.communities ++ [row] }, row)

/-- The community step of `get_or_create_user`: resolve the optional
community payload to a community uid, creating the row if needed. -/
def resolve_user_community (db : DB) (community : Option CommunityData) :
    DB × Option String :=
  match community with
  | none => (db, none)
  | some cd =>
    let r := get_or_create_community db cd
    (r.1, some r.2.uid)

/-- Embeds `get_or_create_user`: `None` payloads resolve to no user; otherwise
look up by `uid`, create on miss (with the placeholder steam id), and
update the community of an existing user when it differs. -/
def get_or_create_user (db : DB) (user_data : Option UserData) :
    DB × Option UserRow :=
  match user_data with
  | none => (db, none)
  | some ud =>
    let rc := resolve_user_community db ud.community
    match rc.1.users.find? (fun u => u.uid == ud.uid) with
    | some urow =>
      if rc.2.isSome ∧ urow.community_uid ≠ rc.2 then
        let urow₂ := { urow with community_uid := rc.2 }
        ({ rc.1 with users :=
          rc.1.users.map (fun u => if u.uid = ud.uid then urow₂ else u) },
          some urow₂)
      else (rc.1, some urow)
    | none =>
      let urow : UserRow :=
        { uid := ud.uid, nickname := ud.nickname,
          steam_id := "imported_" ++ ud.uid, community_uid := rc.2 }
      ({ rc.1 with users := rc.1.users ++ [urow] }, some urow)

/-- Embeds `MissionSlotGroup.objects.create` with an input-supplied primary
key: raises on a duplicate uid. -/
def createSlotGroupRow (db : DB) (row : SlotGroupRow) : Except ImportErr DB :=
  if (db.slot_groups.find? (fun g => g.uid == row.uid)).isSome then
    .error .integrityError
  else .ok { db with slot_groups := db.slot_groups ++ [row] }

/-- Embeds `MissionSlot.objects.create` with an input-supplied primary key. -/
def createSlotRow (db : DB) (row : SlotRow) : Except ImportErr DB :=
  if (db.slots.find? (fun s => s.uid == row.uid)).isSome then
    .error .integrityError
  else .ok { db with slots := db.slots ++ [row] }

/-- Embeds `MissionSlotRegistration.objects.create` with an input-supplied
primary key. -/
def createRegistrationRow (db : DB) (row : RegistrationRow) :
    Except ImportErr DB :=
  if (db.registrations.find? (fun r => r.uid == row.uid)).isSome then
    .error .integrityError
  else .ok { db with registrations := db.registrations ++ [row] }

/-- The body of the inner `for slot_data in group_data['slots']` loop of
`_import_slots`: resolve the optional restricted community and assignee,
create the slot row, and create the registration row when there is an
assignee and a registration uid. -/
def importSlot (db : DB) (slot_group_uid : String) (sd : SlotData) :
    Except ImportErr DB :=
  let rc :=
    match sd.restrictedCommunity with
    | none => (db, (none : Option String))
    | some cd =>
      let r := get_or_create_community db cd
      (r.1, some r.2.uid)
  let ra := get_or_create_user rc.1 sd.assignee
  match createSlotRow ra.1
      { uid := sd.uid, slot_group_uid := slot_group_uid, title := sd.title,
        description := sd.description,
        detailed_description := sd.detailedDescription,
        order_number := sd.orderNumber, required_dlcs := sd.requiredDLCs,
        external_assignee := sd.externalAssignee,
        assignee_uid := ra.2.map (fun u => u.uid),
        restricted_community_uid := rc.2, blocked := sd.blocked,
        reserve := sd.reserve, auto_assignable := sd.autoAssignable } with
  | .error e => .error e
  | .ok db₂ =>
    match ra.2, sd.registrationUid with
    | some arow, some ruid =>
      createRegistrationRow db₂
        { uid := ruid, user_uid := arow.uid, slot_uid := sd.uid }
    | _, _ => .ok db₂

/-- The slot loop of `_import_slots` for one group. -/
def importSlotsOfGroup (slot_group_uid : String) :
    DB → List SlotData → Except ImportErr DB
  | db, [] => .ok db
  | db, sd :: rest =>
    match importSlot db slot_group_uid sd with
    | .error e => .error e
    | .ok db₂ => importSlotsOfGroup slot_group_uid db₂ rest

/-- Embeds `_import_slots` from `backend/api/import_utils.py`: create each slot
group row and then its slots. -/
def import_slots (mission_slug : String) :
    DB → List SlotGroupData → Except ImportErr DB
  | db, [] => .ok db
  | db, gd :: rest =>
    match createSlotGroupRow db
        { uid := gd.uid, mission_slug := mission_slug, title := gd.title,
          description := gd.description, order_number := gd.orderNumber } with
    | .error e => .error e
    | .ok db₁ =>
      match importSlotsOfGroup gd.uid db₁ gd.slots with
      | .error e => .error e
      | .ok db₂ => import_slots mission_slug db₂ rest

/-- The `with transaction.atomic():` block of `import_mission`: create
the community and the mission row and import the slots. -/
def import_mission_tx (db : DB) (creator : UserRow)
    (mission_data : MissionData) (slots_data : List SlotGroupData) :
    Except ImportErr (DB × MissionRow) :=
  let res := get_or_create_community db mission_data.community
  let mission : MissionRow :=
    { slug := mission_data.slug, title := mission_data.title,
      creator_uid := creator.uid, community_uid := res.2.uid,
      required_dlcs := mission_data.requiredDLCs }
  let db₃ := { res.1 with missions := res.1.missions ++ [mission] }
  match import_slots mission.slug db₃ slots_data with
  | .error e => .error e
  | .ok db₄ => .ok (db₄, mission)

/-- The slug check and the transaction of `import_mission`: an existing
slug raises `MissionAlreadyExistsError` before anything is created; an
exception inside the transaction rolls the state back to `db`. -/
def import_mission_checked (db : DB) (creator : UserRow)
    (mission_data : MissionData) (slots_data : List SlotGroupData) :
    Except (ImportErr × DB) (DB × MissionRow) :=
  if (db.missions.find? (fun m => m.slug == mission_data.slug)).isSome then
    .error (.missionAlreadyExists, db)
  else
    match import_mission_tx db creator mission_data slots_data with
    | .error e => .error (e, db)
    | .ok r => .ok r

/-- Embeds `import_mission` from `backend/api/import_utils.py` (with the data
already fetched): resolve the creator — a given `creator_uid` must name
an existing user, otherwise the API creator payload is materialised via
`get_or_create_user` — then check the slug and run the transaction.  An
error result carries the database state that persists after the
exception. -/
def import_mission (db : DB) (creator_uid : Option String)
    (mission_data : MissionData) (slots_data : List SlotGroupData) :
    Except (ImportErr × DB) (DB × MissionRow) :=
  match creator_uid with
  | some cu =>
    match db.users.find? (fun u => u.uid == cu) with
    | none => .error (.creatorNotFound, db)
    | some creator => import_mission_checked db creator mission_data slots_data
  | none =>
    match get_or_create_user db mission_data.creator with
    | (db₁, none) => .error (.creatorNotFound, db₁)
    | (db₁, some creator) =>
      import_mission_checked db₁ creator mission_data slots_data

/-- The step `get_or_create_community` touches only the communities table. -/
theorem get_or_create_community_preserves (db : DB) (cd : CommunityData) :
    (get_or_create_community db cd).1.users = db.users ∧
    (get_or_create_community db cd).1.missions = db.missions ∧
    (get_or_create_community db cd).1.slot_groups = db.slot_groups ∧
    (get_or_create_community db cd).1.slots = db.slots ∧
    (get_or_create_community db cd).1.registrations = db.registrations := by
  cases hf : db.communities.find? (fun c => c.uid == cd.uid) <;>
    simp [get_or_create_community, hf]

/-- The community step of `get_or_create_user` touches only the
communities table. -/
theorem resolve_user_community_preserves (db : DB) (c : Option CommunityData) :
    (resolve_user_community db c).1.users = db.users ∧
    (resolve_user_community db c).1.missions = db.missions ∧
    (resolve_user_community db c).1.slot_groups = db.slot_groups ∧
    (resolve_user_community db c).1.slots = db.slots ∧
    (resolve_user_community db c).1.registrations = db.registrations := by
  cases c with
  | none => simp [resolve_user_community]
  | some cd =>
    simpa [resolve_user_community] using get_or_create_community_preserves db cd

/-- The step `get_or_create_user` touches only the users and communities
tables. -/
theorem get_or_create_user_preserves (db : DB) (ud : Option UserData) :
    (get_or_create_user db ud).1.missions = db.missions ∧
    (get_or_create_user db ud).1.slot_groups = db.slot_groups ∧
    (get_or_create_user db ud).1.slots = db.slots ∧
    (get_or_create_user db ud).1.registrations = db.registrations := by
  cases ud with
  | none => simp [get_or_create_user]
  | some u =>
    have hr := resolve_user_community_preserves db u.community
    simp only [get_or_create_user]
    cases hf : (resolve_user_community db u.community).1.users.find?
        (fun x => x.uid == u.uid) with
    | some urow =>
      by_cases hc : (resolve_user_community db u.community).2.isSome ∧
          urow.community_uid ≠ (resolve_user_community db u.community).2
      · simp [hf, hc, hr.2.1, hr.2.2.1, hr.2.2.2.1, hr.2.2.2.2]
      · simp [hf, hc, hr.2.1, hr.2.2.1, hr.2.2.2.1, hr.2.2.2.2]
    | none => simp [hf, hr.2.1, hr.2.2.1, hr.2.2.2.1, hr.2.2.2.2]

/-- An error escaping the slug check or the transaction leaves the
state from before the transaction. -/
theorem import_mission_checked_error_state (db : DB) (creator : UserRow)
    (md : MissionData) (sd : List SlotGroupData) (e : ImportErr) (db₂ : DB)
    (h : import_mission_checked db creator md sd = .error (e, db₂)) :
    db₂ = db := by
  rw [import_mission_checked] at h
  by_cases hm : (db.missions.find? (fun m => m.slug == md.slug)).isSome
  · rw [if_pos hm] at h
    simp only [Except.error.injEq, Prod.mk.injEq] at h
    exact h.2.symm
  · rw [if_neg hm] at h
    cases htx : import_mission_tx db creator md sd with
    | error e₂ =>
      rw [htx] at h
      simp only [Except.error.injEq, Prod.mk.injEq] at h
      exact h.2.symm
    | ok r => rw [htx] at h; exact Except.noConfusion h

/-- C8: `import_mission` fails with `MissionAlreadyExistsError` and an
unchanged database when the slug already exists (given a resolvable
creator uid), and every failing run — wherever the exception is raised,
including inside the multi-row slot import — leaves the missions,
slot-groups, slots and registrations tables exactly as they were, the
transaction having rolled the partial creation back. -/
theorem import_mission_slug_conflict_and_atomic (db : DB)
    (creator_uid : Option String) (md : MissionData)
    (sd : List SlotGroupData) :
    ((∃ cu, creator_uid = some cu ∧
        (db.users.find? (fun u => u.uid == cu)).isSome) →
      (∃ m ∈ db.missions, m.slug = md.slug) →
      import_mission db creator_uid md sd =
        .error (.missionAlreadyExists, db)) ∧
    (∀ e db₂, import_mission db creator_uid md sd = .error (e, db₂) →
      db₂.missions = db.missions ∧ db₂.slot_groups = db.slot_groups ∧
      db₂.slots = db.slots ∧ db₂.registrations = db.registrations) := by
  constructor
  · rintro ⟨cu, rfl, hfind⟩ ⟨m, hm, hslug⟩
    obtain ⟨u, hu⟩ := Option.isSome_iff_exists.mp hfind
    have hmiss : (db.missions.find? (fun x => x.slug == md.slug)).isSome :=
      List.find?_isSome.mpr ⟨m, hm, by simp [hslug]⟩
    simp only [import_mission, hu]
    rw [import_mission_checked, if_pos hmiss]
  · intro e db₂ h
    cases creator_uid with
    | some cu =>
      cases hu : db.users.find? (fun u => u.uid == cu) with
      | none =>
        simp only [import_mission, hu] at h
        simp only [Except.error.injEq, Prod.mk.injEq] at h
        rw [← h.2]
        exact ⟨rfl, rfl, rfl, rfl⟩
      | some creator =>
        simp only [import_mission, hu] at h
        obtain rfl := import_mission_checked_error_state db creator md sd e db₂ h
        exact ⟨rfl, rfl, rfl, rfl⟩
    | none =>
      have hp := get_or_create_user_preserves db md.creator
      cases hgu : get_or_create_user db md.creator with
      | mk db₁ ou =>
        rw [hgu] at hp
        cases ou with
        | none =>
          simp only [import_mission, hgu] at h
          simp only [Except.error.injEq, Prod.mk.injEq] at h
          rw [← h.2]
          exact hp
        | some creator =>
          simp only [import_mission, hgu] at h
          obtain rfl :=
            import_mission_checked_error_state db₁ creator md sd e db₂ h
          exact hp

/-- The concrete database of the C8 witness. -/
def importWitnessDB : DB :=
  { communities := [],
    users := [{ uid := "u1", nickname := "nick", steam_id := "steam", community_uid := none }],
    missions := [{ slug := "op1", title := "Op One", creator_uid := "u1", community_uid := "c1", required_dlcs := [] }],
    slot_groups := [], slots := [], registrations := [] }

/-- The concrete mission payload of the C8 witness. -/
def importWitnessData : MissionData :=
  { slug := "op1", title := "Op One", description := "d", creator := none,
    community := { uid := "c1", name := "c", tag := "t", slug := "c", website := none, logoUrl := none },
    requiredDLCs := [] }

/-- Witness for C8 at a concrete input. -/
theorem import_mission_slug_conflict_witness :
    (∃ cu, (some "u1" : Option String) = some cu ∧
      (importWitnessDB.users.find? (fun u => u.uid == cu)).isSome) ∧
    (∃ m ∈ importWitnessDB.missions, m.slug = importWitnessData.slug) ∧
    import_mission importWitnessDB (some "u1") importWitnessData [] =
      .error (.missionAlreadyExists, importWitnessDB) := by
  have h₁ : ∃ cu, (some "u1" : Option String) = some cu ∧
      (importWitnessDB.users.find? (fun u => u.uid == cu)).isSome :=
    ⟨"u1", rfl, by decide⟩
  have h₂ : ∃ m ∈ importWitnessDB.missions, m.slug = importWitnessData.slug :=
    ⟨{ slug := "op1", title := "Op One", creator_uid := "u1", community_uid := "c1", required_dlcs := [] },
      by decide, rfl⟩
  exact ⟨h₁, h₂,
    (import_mission_slug_conflict_and_atomic importWitnessDB (some "u1")
      importWitnessData []).1 h₁ h₂⟩

end Slotlist
